import Mathlib

/-!
A verification development for the binary decode engine of `sunless.py`.

Byte streams are modelled as `List Nat` (each element a byte value); the
file cursor is modelled by explicit state passing: a primitive takes the
remaining stream and returns the decoded value together with the rest of
the stream.  Python exceptions are modelled with `Except DecodeErr`.
-/

deriving instance DecidableEq for Except

namespace Sunless

/-- The Python exceptions that the decode paths of `sunless.py` can raise. -/
inductive DecodeErr where
  /-- `IndexError`: `read_fun(1)[0]` when `read` returned `b''` at end of stream. -/
  | indexError
  /-- `AttributeError`: attribute lookup failed on a record instance. -/
  | attributeError
  /-- `ValueError`: e.g. an `IntEnum` constructor applied to an undeclared value. -/
  | valueError
  /-- `FileNotFoundError`: `io.FileIO(filename)` with a missing file. -/
  | fileNotFoundError
  /-- `UnicodeDecodeError`: `bytes.decode()` on invalid UTF-8. -/
  | unicodeDecodeError
deriving DecidableEq

/-- `int.from_bytes(bs, 'little')`: unsigned little-endian interpretation of a
byte string of any length (the empty string decodes to 0). -/
def fromBytesLE (bs : List Nat) : Nat :=
  bs.foldr (fun b acc => b + 256 * acc) 0

/-- `int.from_bytes(bs, 'little', signed=True)`: two's-complement signed
little-endian interpretation at width `8 * bs.length`. -/
def fromBytesLESigned (bs : List Nat) : Int :=
  let u := fromBytesLE bs
  if 2 * u < 2 ^ (8 * bs.length) then (u : Int)
  else (u : Int) - 2 ^ (8 * bs.length)

/-- `read_fun(n)` (`io.BufferedReader.read` on a regular file): returns
`min n remaining` bytes — a short result at end of stream, never an error.
The pair is (bytes returned, rest of the stream). -/
def readBytes (n : Nat) (s : List Nat) : List Nat × List Nat :=
  (s.take n, s.drop n)

/-- `read_fun(1)[0]` (`_Codegen.read_byte`): one byte, or `IndexError` when the
read at end of stream returns the empty byte string. -/
def read_byte : List Nat → Except DecodeErr (Nat × List Nat)
  | [] => .error .indexError
  | b :: rest => .ok (b, rest)

/-- `_Codegen.read_int32`: `int.from_bytes(read_fun(4), 'little', signed=True)`.
Note that a short read near end of stream is interpreted at the narrower
width instead of failing. -/
def read_int32 (s : List Nat) : Int × List Nat :=
  let p := readBytes 4 s
  (fromBytesLESigned p.1, p.2)

/-- The Unity-header detection in `_Reader.__init__`: read the first 4 bytes as
a little-endian unsigned `name_len`; when `name_len < 20`, the padding is
`-name_len & 3` and the block length is `name_len + 4 + padding`; when the
padding bytes (the slice `start[name_len+4:blen]`) are all zero and every name
byte (the slice `start[4:name_len+4]`) satisfies `0x40 < x <= 0x7A`, the
header of `blen + 4` bytes is consumed before decoding begins. -/
def skip_header (s : List Nat) : List Nat :=
  let name_len := fromBytesLE (s.take 4)
  if name_len < 20 then
    let padding := (4 - name_len % 4) % 4
    let blen := name_len + 4 + padding
    if ((s.drop (name_len + 4)).take (blen - (name_len + 4)) =
          List.replicate padding 0)
        ∧ (∀ x ∈ (s.drop 4).take name_len, 0x40 < x ∧ x ≤ 0x7A) then
      s.drop (blen + 4)
    else s
  else s

/-- The loop of `_Codegen._read_varint_real`, with the mutable `shift` and
`acc` of the Python loop passed explicitly:
`acc |= (byte & 0x7F) << shift`, stop on a clear high bit, else `shift += 7`.
Reading a byte at end of stream is the `IndexError` of `read_fun(1)[0]`. -/
def read_varint_real : List Nat → Nat → Nat → Except DecodeErr (Nat × List Nat)
  | [], _, _ => .error .indexError
  | b :: rest, shift, acc =>
    let acc2 := acc ||| (b &&& 0x7F) <<< shift
    if b &&& 0x80 = 0 then .ok (acc2, rest)
    else read_varint_real rest (shift + 7) acc2

/-- `_Codegen._read_varint_real(read_fun)` starting from `shift = 0`, `acc = 0`. -/
def read_varint (s : List Nat) : Except DecodeErr (Nat × List Nat) :=
  read_varint_real s 0 0

/-- Modelled from the spec: the repository is a reader only, so the varint
*encoder* does not exist in the source; this is the encoding the spec
describes — base-128, little-endian group order, low 7 bits of each byte are
value bits, high bit set on every byte except the last. -/
def varint_encode (n : Nat) : List Nat :=
  if h : n < 128 then [n]
  else (n % 128 + 128) :: varint_encode (n / 128)
decreasing_by simp_wf; omega

/-- `_Codegen.read_optional_int32`: the generated expression
`int.from_bytes(read_fun(4), 'little', signed=True) if read_fun(1)[0] else None`.
The conditional evaluates the presence byte first, then the int32 branch. -/
def read_optional_int32 (s : List Nat) : Except DecodeErr (Option Int × List Nat) :=
  match read_byte s with
  | .error e => .error e
  | .ok (b, s1) =>
    if b ≠ 0 then
      let p := read_int32 s1
      .ok (some p.1, p.2)
    else
      .ok (none, s1)

/-- `_Codegen.read_optional_int64` returns the *plain* (not `f`-prefixed)
string `'unexpected_int64 if {self.read_byte()} else None'`, so the generated
code contains the literal text `{self.read_byte()}`: a set display whose
element expression `self.read_byte()` is evaluated first — and record
instances have no `read_byte` attribute, so an `AttributeError` is raised
before any byte of the stream is consumed. -/
def read_optional_int64 (_s : List Nat) : Except DecodeErr (Option Int × List Nat) :=
  .error .attributeError

/-- `_Codegen.read_enum`: the generated expression `ClsName(int32)`, an
`IntEnum` constructor applied to the decoded int32.  The constructor is
abstracted as `ofInt`, which raises `ValueError` on an undeclared value. -/
def read_enum (ofInt : Int → Except DecodeErr β) (s : List Nat) :
    Except DecodeErr (β × List Nat) :=
  let p := read_int32 s
  match ofInt p.1 with
  | .error e => .error e
  | .ok v => .ok (v, p.2)

/-- The declared variants of the `IntEnum` subclass `Nature` in `sunless.py`. -/
inductive Nature where
  | unspecified
  | status
  | thing
  | unknown3
deriving DecidableEq

/-- The `IntEnum` constructor `Nature(value)`: maps a declared value
(0, 1, 2 or 3) to its variant and raises `ValueError` on anything else
(standard `enum.IntEnum` behaviour, no `_missing_` hook is defined). -/
def Nature.ofInt (i : Int) : Except DecodeErr Nature :=
  if i = 0 then .ok .unspecified
  else if i = 1 then .ok .status
  else if i = 2 then .ok .thing
  else if i = 3 then .ok .unknown3
  else .error .valueError

/-- `_Codegen.read_object`: the generated expression
`Cls(read_fun, tell_fun) if read_fun(1)[0] and read_fun(1)[0] else None`.
Python's `and` short-circuits: the second presence byte is read only when the
first is nonzero.  The nested record decode `Cls(read_fun, tell_fun)` is
abstracted as `readRec`. -/
def read_object (readRec : List Nat → Except DecodeErr (α × List Nat))
    (s : List Nat) : Except DecodeErr (Option α × List Nat) :=
  match read_byte s with
  | .error e => .error e
  | .ok (b1, s1) =>
    if b1 ≠ 0 then
      match read_byte s1 with
      | .error e => .error e
      | .ok (b2, s2) =>
        if b2 ≠ 0 then
          match readRec s2 with
          | .error e => .error e
          | .ok (v, s3) => .ok (some v, s3)
        else
          .ok (none, s2)
    else
      .ok (none, s1)

/-- The comprehension
`[clz(read_fun, tell_fun) if read_fun(1)[0] else None for x in range(alen)]`
shared by `_Codegen.read_raw_array_real` and the generated `read_array` code:
one presence byte per entry, then a full record decode when it is nonzero. -/
def read_entries (readRec : List Nat → Except DecodeErr (α × List Nat)) :
    Nat → List Nat → Except DecodeErr (List (Option α) × List Nat)
  | 0, s => .ok ([], s)
  | m + 1, s =>
    match read_byte s with
    | .error e => .error e
    | .ok (b, s1) =>
      if b ≠ 0 then
        match readRec s1 with
        | .error e => .error e
        | .ok (v, s2) =>
          match read_entries readRec m s2 with
          | .error e => .error e
          | .ok (es, s3) => .ok (some v :: es, s3)
      else
        match read_entries readRec m s1 with
        | .error e => .error e
        | .ok (es, s2) => .ok (none :: es, s2)

/-- `_Codegen.read_raw_array_real`: a signed 4-byte little-endian length,
then the per-entry comprehension; `range(alen)` is empty whenever
`alen <= 0`, which `Int.toNat` captures. -/
def read_raw_array_real (readRec : List Nat → Except DecodeErr (α × List Nat))
    (s : List Nat) : Except DecodeErr (List (Option α) × List Nat) :=
  let p := readBytes 4 s
  let alen := fromBytesLESigned p.1
  read_entries readRec alen.toNat p.2

/-- The statements generated by `_Codegen.read_array` (non-debug branch): a
field-level presence byte; when nonzero, 4 raw length bytes compared against
`b'\0\0\0\0'` (the empty tuple fast path), otherwise interpreted as a signed
int and fed to the same per-entry comprehension. -/
def read_array (readRec : List Nat → Except DecodeErr (α × List Nat))
    (s : List Nat) : Except DecodeErr (Option (List (Option α)) × List Nat) :=
  match read_byte s with
  | .error e => .error e
  | .ok (b, s1) =>
    if b = 0 then
      .ok (none, s1)
    else
      let p := readBytes 4 s1
      if p.1 = [0, 0, 0, 0] then
        .ok (some [], p.2)
      else
        let alen := fromBytesLESigned p.1
        match read_entries readRec alen.toNat p.2 with
        | .error e => .error e
        | .ok (es, s2) => .ok (some es, s2)

/-- `bytes.split(b'\r\n')`: split on each non-overlapping occurrence of the
two-byte separator, left to right; the result always has at least one
segment. -/
def splitCRLF : List Nat → List (List Nat)
  | [] => [[]]
  | 13 :: 10 :: rest => [] :: splitCRLF rest
  | b :: rest =>
    match splitCRLF rest with
    | [] => [[b]]
    | g :: gs => (b :: g) :: gs

/-- `bytes.decode()`: strict UTF-8 decoding to a list of code points,
rejecting malformed leading/continuation bytes, overlong forms, surrogates
and values above U+10FFFF, as CPython's strict codec does. -/
def utf8Decode : List Nat → Except DecodeErr (List Nat)
  | [] => .ok []
  | b :: rest =>
    if b < 0x80 then do
      let cs ← utf8Decode rest
      return b :: cs
    else if 0xC2 ≤ b ∧ b ≤ 0xDF then
      match rest with
      | c1 :: rest1 =>
        if 0x80 ≤ c1 ∧ c1 ≤ 0xBF then do
          let cs ← utf8Decode rest1
          return ((b - 0xC0) * 64 + (c1 - 0x80)) :: cs
        else .error .unicodeDecodeError
      | [] => .error .unicodeDecodeError
    else if 0xE0 ≤ b ∧ b ≤ 0xEF then
      match rest with
      | c1 :: c2 :: rest2 =>
        if (0x80 ≤ c1 ∧ c1 ≤ 0xBF) ∧ (0x80 ≤ c2 ∧ c2 ≤ 0xBF)
            ∧ (b ≠ 0xE0 ∨ 0xA0 ≤ c1) ∧ (b ≠ 0xED ∨ c1 ≤ 0x9F) then do
          let cs ← utf8Decode rest2
          return ((b - 0xE0) * 4096 + (c1 - 0x80) * 64 + (c2 - 0x80)) :: cs
        else .error .unicodeDecodeError
      | _ => .error .unicodeDecodeError
    else if 0xF0 ≤ b ∧ b ≤ 0xF4 then
      match rest with
      | c1 :: c2 :: c3 :: rest3 =>
        if (0x80 ≤ c1 ∧ c1 ≤ 0xBF) ∧ (0x80 ≤ c2 ∧ c2 ≤ 0xBF)
            ∧ (0x80 ≤ c3 ∧ c3 ≤ 0xBF)
            ∧ (b ≠ 0xF0 ∨ 0x90 ≤ c1) ∧ (b ≠ 0xF4 ∨ c1 ≤ 0x8F) then do
          let cs ← utf8Decode rest3
          return ((b - 0xF0) * 262144 + (c1 - 0x80) * 4096
                  + (c2 - 0x80) * 64 + (c3 - 0x80)) :: cs
        else .error .unicodeDecodeError
      | _ => .error .unicodeDecodeError
    else .error .unicodeDecodeError

/-- A Python comprehension `[f(x) for x in l]` whose body may raise:
evaluate left to right, the first exception propagates. -/
def mapExcept (f : σ → Except ε β) : List σ → Except ε (List β)
  | [] => .ok []
  | a :: t =>
    match f a with
    | .error e => .error e
    | .ok b =>
      match mapExcept f t with
      | .error e => .error e
      | .ok bs => .ok (b :: bs)

/-- `_load_backers`: open the file through `_Reader` (which applies the
header detection of `skip_header`), read all remaining bytes, split on CRLF,
decode each segment, and delete the final segment when all of its characters
are NUL (vacuously, also when it is empty). -/
def load_backers (bytes : List Nat) : Except DecodeErr (List (List Nat)) :=
  match mapExcept utf8Decode (splitCRLF (skip_header bytes)) with
  | .error e => .error e
  | .ok backers =>
    match backers.getLast? with
    | some lst =>
      if lst.all (fun c => c == 0) then
        .ok backers.dropLast
      else
        .ok backers
    | none => .ok backers

/-- The result of loading one dataset: a decoded raw array for the eight
record datasets, or the list of strings (as code-point lists) for
`backers`. -/
inductive DatasetResult (α : Type) where
  | records : List (Option α) → DatasetResult α
  | names : List (List Nat) → DatasetResult α
deriving DecidableEq

/-- `_VALID_TYPES`: the dataset names of `_ALL_DATA_TYPES` plus `'backers'`. -/
def VALID_TYPES : List String :=
  ["areas", "bargains", "events", "exchanges", "personas", "prospects",
   "qualities", "settings", "backers"]

/-- `load_data(data_type)` over a directory modelled as a partial map
`fs : String → Option (List Nat)` from file name to contents (`none` models
the missing file that makes `io.FileIO` raise `FileNotFoundError`).  The
per-record decoders of the eight record classes are abstracted as
`decodeElem`, one element decoder per dataset name; the rest follows the
source: reject unknown names with `ValueError`, route `'backers'` to
`_load_backers`, otherwise open the file (header skipping happens in
`_Reader.__init__`) and decode one raw array via
`_Codegen.read_raw_array_real`. -/
def load_data (decodeElem : String → List Nat → Except DecodeErr (α × List Nat))
    (fs : String → Option (List Nat)) (data_type : String) :
    Except DecodeErr (DatasetResult α) :=
  if data_type ∉ VALID_TYPES then .error .valueError
  else
    match fs (data_type ++ ".dat") with
    | none => .error .fileNotFoundError
    | some bytes =>
      if data_type = "backers" then
        (load_backers bytes).map DatasetResult.names
      else
        (read_raw_array_real (decodeElem data_type) (skip_header bytes)).map
          (fun p => DatasetResult.records p.1)

/-- `load_all(root_dir)`: a dict comprehension invoking `load_data` for each
valid type in order; the first exception raised by any `load_data` call
propagates out of the comprehension and aborts the whole load (the source
has no try/except around it). -/
def load_all (decodeElem : String → List Nat → Except DecodeErr (α × List Nat))
    (fs : String → Option (List Nat)) :
    Except DecodeErr (List (String × DatasetResult α)) :=
  mapExcept (fun x => (load_data decodeElem fs x).map (fun r => (x, r))) VALID_TYPES

/-- A trivial element decoder, used to instantiate the generic theorems at
concrete inputs. -/
def elemUnit : List Nat → Except DecodeErr (Unit × List Nat) :=
  fun s => .ok ((), s)

/-- `elemUnit` for every dataset name. -/
def elemUnitOf : String → List Nat → Except DecodeErr (Unit × List Nat) :=
  fun _ => elemUnit

/-- A directory in which every dataset file is present with the four-byte
all-zero content (each such file decodes to an empty dataset). -/
def fsAll : String → Option (List Nat) :=
  fun _ => some [0, 0, 0, 0]

/-- The same directory with `areas.dat` removed. -/
def fsMissingAreas : String → Option (List Nat) :=
  fun name => if name = "areas.dat" then none else some [0, 0, 0, 0]

/-- Whether an `Except` computation succeeded. -/
def isOk : Except ε α → Bool
  | .ok _ => true
  | .error _ => false

theorem isOk_iff_ok {e : Except ε α} : isOk e = true ↔ ∃ a, e = .ok a := by
  cases e <;> simp [isOk]

theorem mapExcept_isOk_iff {σ β : Type} {f : σ → Except ε β} :
    ∀ l : List σ, (∃ r, mapExcept f l = .ok r) ↔ ∀ x ∈ l, ∃ b, f x = .ok b := by
  intro l
  induction l with
  | nil => simp [mapExcept]
  | cons a t ih =>
    rw [mapExcept]
    cases hfa : f a with
    | error e =>
      constructor
      · rintro ⟨r, hr⟩
        exact absurd hr (by simp)
      · intro h
        rcases h a (List.mem_cons_self a t) with ⟨b, hb⟩
        rw [hfa] at hb
        exact absurd hb (by simp)
    | ok b =>
      cases hmt : mapExcept f t with
      | error e =>
        constructor
        · rintro ⟨r, hr⟩
          exact absurd hr (by simp)
        · intro h
          rcases ih.mpr (fun x hx => h x (List.mem_cons_of_mem a hx)) with ⟨r, hr⟩
          rw [hmt] at hr
          exact absurd hr (by simp)
      | ok r =>
        constructor
        · intro _ x hx
          rcases List.mem_cons.mp hx with rfl | hx
          · exact ⟨b, hfa⟩
          · exact ih.mp ⟨r, hmt⟩ x hx
        · intro _
          exact ⟨b :: r, rfl⟩

theorem mapExcept_ok_forward {σ β : Type} {f : σ → Except ε β} :
    ∀ (l : List σ) (r : List β), mapExcept f l = .ok r →
      ∀ a ∈ l, ∃ b ∈ r, f a = .ok b := by
  intro l
  induction l with
  | nil => simp
  | cons a t ih =>
    intro r hr x hx
    rw [mapExcept] at hr
    cases hfa : f a with
    | error e =>
      rw [hfa] at hr
      exact absurd hr (by simp)
    | ok b =>
      rw [hfa] at hr
      cases hmt : mapExcept f t with
      | error e =>
        rw [hmt] at hr
        exact absurd hr (by simp)
      | ok bs =>
        rw [hmt] at hr
        have hr2 : r = b :: bs := (Except.ok.inj hr).symm
        subst hr2
        rcases List.mem_cons.mp hx with rfl | hx
        · exact ⟨b, List.mem_cons_self b bs, hfa⟩
        · rcases ih bs hmt x hx with ⟨c, hc1, hc2⟩
          exact ⟨c, List.mem_cons_of_mem b hc1, hc2⟩

theorem mapExcept_ok_backward {σ β : Type} {f : σ → Except ε β} :
    ∀ (l : List σ) (r : List β), mapExcept f l = .ok r →
      ∀ b ∈ r, ∃ a ∈ l, f a = .ok b := by
  intro l
  induction l with
  | nil =>
    intro r hr b hb
    rw [mapExcept] at hr
    have hr2 : r = [] := (Except.ok.inj hr).symm
    subst hr2
    simp at hb
  | cons a t ih =>
    intro r hr x hx
    rw [mapExcept] at hr
    cases hfa : f a with
    | error e =>
      rw [hfa] at hr
      exact absurd hr (by simp)
    | ok b =>
      rw [hfa] at hr
      cases hmt : mapExcept f t with
      | error e =>
        rw [hmt] at hr
        exact absurd hr (by simp)
      | ok bs =>
        rw [hmt] at hr
        have hr2 : r = b :: bs := (Except.ok.inj hr).symm
        subst hr2
        rcases List.mem_cons.mp hx with rfl | hx
        · exact ⟨a, List.mem_cons_self a t, hfa⟩
        · rcases ih bs hmt x hx with ⟨c, hc1, hc2⟩
          exact ⟨c, List.mem_cons_of_mem a hc1, hc2⟩

/-- Successful entry decoding returns exactly as many entries as requested. -/
theorem read_entries_length {α : Type}
    (readRec : List Nat → Except DecodeErr (α × List Nat)) :
    ∀ (m : Nat) (s : List Nat) (es : List (Option α)) (r : List Nat),
      read_entries readRec m s = .ok (es, r) → es.length = m := by
  intro m
  induction m with
  | zero =>
    intro s es r h
    rw [read_entries] at h
    injection h with h1
    injection h1 with h2 h3
    rw [← h2]
    rfl
  | succ k ih =>
    intro s es r h
    rw [read_entries] at h
    cases s with
    | nil => exact absurd h (by simp [read_byte])
    | cons b s1 =>
      simp only [read_byte] at h
      by_cases hb : b ≠ 0
      · rw [if_pos hb] at h
        split at h
        next => exact absurd h (by simp)
        next v s2 hrec =>
          split at h
          next => exact absurd h (by simp)
          next es2 s3 hent =>
            have h2 := Except.ok.inj h
            have h3 : es = some v :: es2 := (congrArg Prod.fst h2).symm
            rw [h3]
            simp [ih s2 es2 s3 hent]
      · rw [if_neg hb] at h
        split at h
        next => exact absurd h (by simp)
        next es2 s2 hent =>
          have h2 := Except.ok.inj h
          have h3 : es = none :: es2 := (congrArg Prod.fst h2).symm
          rw [h3]
          simp [ih s1 es2 s2 hent]

/-- `a ||| b <<< k = a + b * 2 ^ k` whenever `a` fits below bit `k`. -/
theorem lor_shiftLeft_eq_add {a k : Nat} (b : Nat) (h : a < 2 ^ k) :
    a ||| b <<< k = a + b * 2 ^ k := by
  rw [Nat.shiftLeft_eq, Nat.lor_comm, Nat.mul_comm]
  rw [← Nat.mul_add_lt_is_or h]
  omega

theorem and_127_eq_mod (n : Nat) : n &&& 127 = n % 128 := by
  have h := Nat.and_pow_two_sub_one_eq_mod n 7
  norm_num at h
  exact h

theorem and_128_of_lt {n : Nat} (h : n < 128) : n &&& 128 = 0 := by
  have h2 := Nat.and_two_pow n 7
  have h3 : n.testBit 7 = false := Nat.testBit_lt_two_pow (by norm_num; omega)
  rw [h3] at h2
  norm_num at h2
  exact h2

theorem and_128_of_bit {n : Nat} : (n % 128 + 128) &&& 128 = 128 := by
  have h2 := Nat.and_two_pow (n % 128 + 128) 7
  have hlt : n % 128 < 2 ^ 7 := by norm_num; omega
  have h3 : (n % 128 + 128).testBit 7 = true := by
    have := Nat.testBit_mul_pow_two_add 1 hlt 7
    norm_num at this
    rw [Nat.add_comm] at this
    simpa using this
  rw [h3] at h2
  norm_num at h2
  exact h2

/-- Decoding an encoded varint from any loop state that has room for it. -/
theorem read_varint_real_encode (n : Nat) :
    ∀ (tl : List Nat) (shift acc : Nat), acc < 2 ^ shift →
      read_varint_real (varint_encode n ++ tl) shift acc =
        .ok (acc + n * 2 ^ shift, tl) := by
  induction n using Nat.strong_induction_on with
  | _ n ih =>
    intro tl shift acc hacc
    rw [varint_encode]
    by_cases h : n < 128
    · rw [dif_pos h]
      simp only [List.cons_append, List.nil_append, read_varint_real]
      rw [and_127_eq_mod, Nat.mod_eq_of_lt h, and_128_of_lt h, if_pos rfl]
      rw [lor_shiftLeft_eq_add n hacc]
      rfl
    · rw [dif_neg h]
      simp only [List.cons_append, read_varint_real]
      rw [and_127_eq_mod, and_128_of_bit]
      rw [if_neg (by norm_num)]
      have hmod : (n % 128 + 128) % 128 = n % 128 := by omega
      rw [hmod, lor_shiftLeft_eq_add (n % 128) hacc]
      have hacc2 : acc + n % 128 * 2 ^ shift < 2 ^ (shift + 7) := by
        have ht : 2 ^ (shift + 7) = 128 * 2 ^ shift := by
          rw [Nat.pow_add]; ring
        have h1 : acc + n % 128 * 2 ^ shift < (n % 128 + 1) * 2 ^ shift := by
          rw [Nat.succ_mul]; omega
        have h2 : (n % 128 + 1) * 2 ^ shift ≤ 128 * 2 ^ shift :=
          Nat.mul_le_mul_right _ (by omega)
        omega
      have hih := ih (n / 128) (by omega) tl (shift + 7)
        (acc + n % 128 * 2 ^ shift) hacc2
      have hn : n = n % 128 + 128 * (n / 128) := (Nat.mod_add_div n 128).symm
      have harith : acc + n % 128 * 2 ^ shift + n / 128 * 2 ^ (shift + 7) =
          acc + n * 2 ^ shift := by
        calc acc + n % 128 * 2 ^ shift + n / 128 * 2 ^ (shift + 7)
            = acc + (n % 128 + 128 * (n / 128)) * 2 ^ shift := by
              rw [Nat.pow_add]; ring
          _ = acc + n * 2 ^ shift := by rw [← hn]
      rw [harith] at hih
      exact hih

/-- Claim C4: for every unsigned integer `n` in `[0, 2^35)`, encoding `n`
with the base-128 little-endian-group varint algorithm (low 7 bits per byte,
high bit set on all but the last byte) and decoding via
`_Codegen._read_varint_real` reproduces `n` exactly, leaving the rest of the
stream untouched.  In fact the hypothesis `n < 2 ^ 35` is not even needed. -/
theorem varint_roundtrip (n : Nat) (tl : List Nat) (_h : n < 2 ^ 35) :
    read_varint (varint_encode n ++ tl) = .ok (n, tl) := by
  have h0 := read_varint_real_encode n tl 0 0 (by norm_num)
  simpa [read_varint] using h0

/-- Witness for claim C4 at the spec's literal: `[0xE5, 0x8E, 0x26]`
decodes to `624485`. -/
theorem varint_roundtrip_witness :
    624485 < 2 ^ 35 ∧ varint_encode 624485 = [0xE5, 0x8E, 0x26]
      ∧ read_varint ([0xE5, 0x8E, 0x26] ++ []) = .ok (624485, []) := by
  have henc : varint_encode 624485 = [0xE5, 0x8E, 0x26] := by
    rw [varint_encode]
    norm_num
    rw [varint_encode]
    norm_num
    rw [varint_encode]
    norm_num
  refine ⟨by norm_num, henc, ?_⟩
  have h := varint_roundtrip 624485 [] (by norm_num)
  rw [henc] at h
  exact h

/-- Counterexample to claim C8: the varint decoder happily reads 100
continuation bytes without any `MalformedVarint` failure, and on a stream
that never clears the continuation bit it fails only with the end-of-stream
`IndexError`. -/
theorem read_varint_hundred_continuation :
    read_varint (List.replicate 100 0x80 ++ [0]) = .ok (0, [])
      ∧ read_varint (List.replicate 100 0x80) = .error .indexError := by
  constructor <;> decide

theorem read_varint_real_all_continuation (k : Nat) :
    ∀ shift acc,
      read_varint_real (List.replicate k 0x80 ++ [0]) shift acc = .ok (acc, [])
        ∧ read_varint_real (List.replicate k 0x80) shift acc =
            .error .indexError := by
  induction k with
  | zero =>
    intro shift acc
    have h1 : (0 &&& 128 : Nat) = 0 := by decide
    have h2 : (0 &&& 127 : Nat) = 0 := by decide
    constructor
    · simp [read_varint_real, h1, h2, Nat.zero_shiftLeft]
    · simp [read_varint_real]
  | succ m ih =>
    intro shift acc
    have hrep : List.replicate (m + 1) 0x80 = 0x80 :: List.replicate m 0x80 :=
      List.replicate_succ 0x80 m
    have h1 : (128 &&& 127 : Nat) = 0 := by decide
    have h2 : ¬ ((128 &&& 128 : Nat) = 0) := by decide
    constructor
    · rw [hrep]
      simp only [List.cons_append, read_varint_real, h1, Nat.zero_shiftLeft,
        Nat.or_zero]
      rw [if_neg h2]
      exact (ih (shift + 7) acc).1
    · rw [hrep]
      simp only [read_varint_real, h1, Nat.zero_shiftLeft, Nat.or_zero]
      rw [if_neg h2]
      exact (ih (shift + 7) acc).2

/-- Claim C8 (amended): the varint decoder of `_Codegen._read_varint_real`
enforces no bound on the number of continuation bytes and has no dedicated
`MalformedVarint` error: for every `k` it reads `k` continuation bytes and a
terminator successfully, and on a stream of `k` continuation bytes that
never clears the high bit it consumes the whole stream and fails with the
end-of-stream `IndexError` of `read_fun(1)[0]`. -/
theorem read_varint_unbounded (k : Nat) :
    read_varint (List.replicate k 0x80 ++ [0]) = .ok (0, [])
      ∧ read_varint (List.replicate k 0x80) = .error .indexError := by
  simpa [read_varint] using read_varint_real_all_continuation k 0 0

/-- Counterexample to claim C3: a 4-byte read from a 2-byte stream returns
2 bytes instead of "exactly 4 bytes or a `TruncatedStream` failure", and the
int32 primitive silently decodes the short bytes to `42`. -/
theorem read_int32_short_read_no_error :
    (readBytes 4 [42, 0]).1 = [42, 0] ∧ (readBytes 4 [42, 0]).1.length ≠ 4
      ∧ read_int32 [42, 0] = (42, []) := by
  refine ⟨by decide, by decide, by decide⟩

/-- Claim C3 (amended): `read(n)` never fails — it returns
`min n remaining` bytes, a short result at end of stream; the int32
primitive always "succeeds", interpreting whatever `read(4)` returned
(signed, little-endian, at the width actually read); the only failure mode
is the `IndexError` of `read_fun(1)[0]` on an empty read.  There is no
`TruncatedStream` error anywhere. -/
theorem read_bytes_no_truncated_stream (n : Nat) (s : List Nat) :
    (readBytes n s).1.length = min n s.length
      ∧ (readBytes n s).1 ++ (readBytes n s).2 = s
      ∧ read_int32 s = (fromBytesLESigned (s.take 4), s.drop 4)
      ∧ read_byte [] = (.error .indexError : Except DecodeErr (Nat × List Nat)) := by
  refine ⟨?_, ?_, rfl, rfl⟩
  · simp [readBytes]
  · simp [readBytes]

/-- Counterexample to claim C1: when the outer presence flag is 0x00, only
ONE byte is consumed — Python's `and` short-circuits before the inner flag
read — so the next byte (here 0x07) is still in the stream, not consumed as
a second flag byte. -/
theorem read_object_outer_zero_one_byte :
    read_object elemUnit [0, 7] = .ok (none, [7])
      ∧ read_object elemUnit [0, 7] ≠ .ok (none, []) := by
  exact ⟨by decide, by decide⟩

/-- Claim C1 (amended): an optional nested record field consumes its outer
presence byte, and the inner presence byte only when the outer one is
nonzero (the generated `... if read_fun(1)[0] and read_fun(1)[0] else None`
short-circuits).  The nested record is decoded exactly when both flags are
nonzero; flags `[0x01, 0x00]` yield null after exactly two bytes, while an
outer flag of 0x00 yields null after exactly one byte. -/
theorem read_object_flag_semantics {α : Type}
    (readRec : List Nat → Except DecodeErr (α × List Nat))
    (s : List Nat) (b c : Nat) :
    read_object readRec (0 :: s) = .ok (none, s)
      ∧ (b ≠ 0 → read_object readRec (b :: 0 :: s) = .ok (none, s))
      ∧ (b ≠ 0 → c ≠ 0 →
          read_object readRec (b :: c :: s) =
            Except.map (fun q => (some q.1, q.2)) (readRec s)) := by
  refine ⟨?_, ?_, ?_⟩
  · simp [read_object, read_byte]
  · intro hb
    simp [read_object, read_byte, hb]
  · intro hb hc
    cases hr : readRec s with
    | error e => simp [read_object, read_byte, hb, hc, hr, Except.map]
    | ok q =>
      obtain ⟨v, s3⟩ := q
      simp [read_object, read_byte, hb, hc, hr, Except.map]

/-- Witness for claim C1's amended statement at concrete flags. -/
theorem read_object_flag_semantics_witness :
    read_object elemUnit [1, 0, 9] = .ok (none, [9])
      ∧ read_object read_byte [1, 1, 42] = .ok (some 42, []) := by
  constructor
  · exact (read_object_flag_semantics elemUnit [9] 1 0).2.1 (by decide)
  · have h := (read_object_flag_semantics read_byte [42] 1 1).2.2
      (by decide) (by decide)
    simpa [read_byte, Except.map] using h

/-- Claim C5: preamble detection reads the first 4 bytes as a little-endian
unsigned length `L` and advances past a framing block of `B + 4` bytes —
with `padding = (-L) mod 4` and `B = L + 4 + padding` — exactly when
`L < 20`, the `padding` trailing bytes are all zero, and every byte of the
`L`-byte name region lies in the contiguous upper/lowercase ASCII letter
range 0x41–0x7A that the source checks; otherwise decoding starts at byte 0.
In particular a stream whose first 4 bytes decode to `L ≥ 20` is never
treated as framing. -/
theorem skip_header_spec (s : List Nat) :
    (skip_header s =
      if fromBytesLE (s.take 4) < 20
          ∧ ((s.drop (fromBytesLE (s.take 4) + 4)).take
                ((-(fromBytesLE (s.take 4) : Int) % 4).toNat)
              = List.replicate ((-(fromBytesLE (s.take 4) : Int) % 4).toNat) 0)
          ∧ (∀ x ∈ (s.drop 4).take (fromBytesLE (s.take 4)),
              0x40 < x ∧ x ≤ 0x7A)
        then
          s.drop (fromBytesLE (s.take 4) + 4
            + (-(fromBytesLE (s.take 4) : Int) % 4).toNat + 4)
        else s)
      ∧ (20 ≤ fromBytesLE (s.take 4) → skip_header s = s) := by
  have hpad : (-(fromBytesLE (s.take 4) : Int) % 4).toNat
      = (4 - fromBytesLE (s.take 4) % 4) % 4 := by omega
  have hsub : fromBytesLE (s.take 4) + 4 + (4 - fromBytesLE (s.take 4) % 4) % 4
      - (fromBytesLE (s.take 4) + 4)
      = (4 - fromBytesLE (s.take 4) % 4) % 4 := by omega
  have main : skip_header s =
      if fromBytesLE (s.take 4) < 20
          ∧ ((s.drop (fromBytesLE (s.take 4) + 4)).take
                ((-(fromBytesLE (s.take 4) : Int) % 4).toNat)
              = List.replicate ((-(fromBytesLE (s.take 4) : Int) % 4).toNat) 0)
          ∧ (∀ x ∈ (s.drop 4).take (fromBytesLE (s.take 4)),
              0x40 < x ∧ x ≤ 0x7A)
        then
          s.drop (fromBytesLE (s.take 4) + 4
            + (-(fromBytesLE (s.take 4) : Int) % 4).toNat + 4)
        else s := by
    simp only [skip_header]
    rw [hpad, hsub]
    split_ifs <;> first | rfl | tauto
  refine ⟨main, ?_⟩
  intro h20
  rw [main, if_neg]
  rintro ⟨h1, _, _⟩
  omega

/-- Witness for claim C5 at a concrete stream whose length field is 255. -/
theorem skip_header_spec_witness :
    20 ≤ fromBytesLE (([255, 0, 0, 0] : List Nat).take 4)
      ∧ skip_header [255, 0, 0, 0] = [255, 0, 0, 0] :=
  ⟨by decide, (skip_header_spec [255, 0, 0, 0]).2 (by decide)⟩

/-- Claim C6, evaluated at the failing input: `optional_int32` behaves as
the claim says (bytes `[0x01, 0x2A, 0x00, 0x00, 0x00]` yield 42 consuming 5
bytes; a zero presence byte yields null consuming exactly 1 byte), but
decoding an `optional_int64` field raises `AttributeError` without consuming
even its presence byte, because the generator's string lacks the `f`
prefix. -/
theorem read_optional_int64_attribute_error :
    read_optional_int32 [1, 0x2A, 0, 0, 0] = .ok (some 42, [])
      ∧ read_optional_int32 [0] = .ok (none, [])
      ∧ read_optional_int64 [0] = .error .attributeError
      ∧ read_optional_int64 [1, 42, 0, 0, 0, 0, 0, 0, 0] =
          .error .attributeError := by
  exact ⟨by decide, by decide, rfl, rfl⟩

/-- Counterexample to claim C7: decoding the int32 value 4 as a `Nature`
enum fails with `ValueError` — there is no "unrecognized value" wrapper. -/
theorem read_enum_nature_value_error :
    read_enum Nature.ofInt [4, 0, 0, 0] = .error .valueError := by
  decide

/-- Claim C7 (amended): enum decoding applies the `IntEnum` constructor to
the decoded int32; it succeeds exactly when the integer is one of the
declared variants (for `Nature`: 0, 1, 2, or the explicitly declared
out-of-range escape `UNKNOWN_3 = 3`), and raises `ValueError` on every
other integer instead of representing it as an unrecognized value. -/
theorem read_enum_nature_spec (s : List Nat) :
    ((∃ v, read_enum Nature.ofInt s = .ok (v, s.drop 4)) ↔
        (fromBytesLESigned (s.take 4) = 0 ∨ fromBytesLESigned (s.take 4) = 1
          ∨ fromBytesLESigned (s.take 4) = 2
          ∨ fromBytesLESigned (s.take 4) = 3))
      ∧ (¬(fromBytesLESigned (s.take 4) = 0 ∨ fromBytesLESigned (s.take 4) = 1
            ∨ fromBytesLESigned (s.take 4) = 2
            ∨ fromBytesLESigned (s.take 4) = 3) →
          read_enum Nature.ofInt s = .error .valueError) := by
  simp only [read_enum, read_int32, readBytes, Nature.ofInt]
  split_ifs with h0 h1 h2 h3
  · simp [h0]
  · simp [h0, h1]
  · simp [h0, h1, h2]
  · simp [h0, h1, h2, h3]
  · simp [h0, h1, h2, h3]

/-- Witness for claim C7's amended statement at the out-of-range value 4. -/
theorem read_enum_nature_spec_witness :
    ¬(fromBytesLESigned (([4, 0, 0, 0] : List Nat).take 4) = 0
        ∨ fromBytesLESigned (([4, 0, 0, 0] : List Nat).take 4) = 1
        ∨ fromBytesLESigned (([4, 0, 0, 0] : List Nat).take 4) = 2
        ∨ fromBytesLESigned (([4, 0, 0, 0] : List Nat).take 4) = 3)
      ∧ read_enum Nature.ofInt [4, 0, 0, 0] = .error .valueError :=
  ⟨by decide, (read_enum_nature_spec [4, 0, 0, 0]).2 (by decide)⟩

/-- Counterexample to claim C9: with length bytes `FF FF FF FF` the decoded
signed length is -1, which is not 0, yet the decoder reads no entries at
all — the result is empty, not "exactly N entries each with a presence
flag". -/
theorem read_raw_array_negative_not_n_entries :
    fromBytesLESigned (([255, 255, 255, 255] : List Nat).take 4) = -1
      ∧ ((-1 : Int) ≠ 0)
      ∧ read_raw_array_real elemUnit [255, 255, 255, 255] = .ok ([], [])
      ∧ ((([] : List (Option Unit)).length : Int) ≠ -1) := by
  exact ⟨by decide, by decide, by decide, by decide⟩

/-- Claim C9 (amended): raw-array decoding reads a signed 4-byte
little-endian length `N` with no array-level presence byte; whenever
`N ≤ 0` (zero, or a corrupt negative value) the result is the empty
sequence after consuming exactly the 4 length bytes, with no element flags
read; when the decode succeeds it returns exactly `max N 0` entries; and
each entry is one presence byte followed by a full record decode when the
byte is nonzero, or null when it is zero. -/
theorem read_raw_array_real_spec {α : Type}
    (readRec : List Nat → Except DecodeErr (α × List Nat))
    (s : List Nat) (h4 : 4 ≤ s.length) :
    (fromBytesLESigned (s.take 4) ≤ 0 →
        read_raw_array_real readRec s = .ok ([], s.drop 4))
      ∧ (∀ es r, read_raw_array_real readRec s = .ok (es, r) →
          (es.length : Int) = max (fromBytesLESigned (s.take 4)) 0)
      ∧ (∀ m t, read_entries readRec (m + 1) (0 :: t) =
          match read_entries readRec m t with
          | .error e => .error e
          | .ok (es, s2) => .ok (none :: es, s2))
      ∧ (∀ m b t, b ≠ 0 → read_entries readRec (m + 1) (b :: t) =
          match readRec t with
          | .error e => .error e
          | .ok (v, s2) =>
            match read_entries readRec m s2 with
            | .error e => .error e
            | .ok (es, s3) => .ok (some v :: es, s3)) := by
  refine ⟨?_, ?_, ?_, ?_⟩
  · intro hneg
    have htn : (fromBytesLESigned (s.take 4)).toNat = 0 :=
      Int.toNat_of_nonpos hneg
    simp [read_raw_array_real, readBytes, htn, read_entries]
  · intro es r hok
    have hok2 : read_entries readRec (fromBytesLESigned (s.take 4)).toNat
        (s.drop 4) = .ok (es, r) := hok
    have hlen := read_entries_length readRec _ _ es r hok2
    omega
  · intro m t
    cases h : read_entries readRec m t with
    | error e => simp [read_entries, read_byte, h]
    | ok p =>
      obtain ⟨es2, s2⟩ := p
      simp [read_entries, read_byte, h]
  · intro m b t hb
    cases hr : readRec t with
    | error e => simp [read_entries, read_byte, hb, hr]
    | ok q =>
      obtain ⟨v, s2⟩ := q
      cases he : read_entries readRec m s2 with
      | error e => simp [read_entries, read_byte, hb, hr, he]
      | ok p =>
        obtain ⟨es2, s3⟩ := p
        simp [read_entries, read_byte, hb, hr, he]

/-- Witness for claim C9's amended statement: length 1, one present entry
decoded by the single-byte element decoder. -/
theorem read_raw_array_real_spec_witness :
    4 ≤ ([1, 0, 0, 0, 1, 42] : List Nat).length
      ∧ ((([some 42] : List (Option Nat)).length : Int)
          = max (fromBytesLESigned (([1, 0, 0, 0, 1, 42] : List Nat).take 4)) 0) := by
  refine ⟨by decide, ?_⟩
  exact (read_raw_array_real_spec read_byte [1, 0, 0, 0, 1, 42]
    (by decide)).2.1 [some 42] [] (by decide)

/-- Claim C10: a strictly negative decoded array length is silently treated
like zero — the result is an empty sequence after consuming exactly the 4
length bytes, with no elements read and no failure — both in
`_Codegen.read_raw_array_real` and in the generated optional-array code
(reached there after a nonzero field presence byte, since a negative length
cannot be the all-zero fast-path bytes). -/
theorem read_raw_array_negative_length {α : Type}
    (readRec : List Nat → Except DecodeErr (α × List Nat))
    (s : List Nat) (h4 : 4 ≤ s.length)
    (hneg : fromBytesLESigned (s.take 4) < 0) :
    read_raw_array_real readRec s = .ok ([], s.drop 4)
      ∧ ∀ b, b ≠ 0 → read_array readRec (b :: s) = .ok (some [], s.drop 4) := by
  have htn : (fromBytesLESigned (s.take 4)).toNat = 0 :=
    Int.toNat_of_nonpos (le_of_lt hneg)
  constructor
  · simp [read_raw_array_real, readBytes, htn, read_entries]
  · intro b hb
    have hne : s.take 4 ≠ [0, 0, 0, 0] := by
      intro he
      rw [he] at hneg
      norm_num [fromBytesLESigned, fromBytesLE] at hneg
    simp [read_array, read_byte, hb, readBytes, hne, htn, read_entries]

/-- Witness for claim C10 at length bytes `FF FF FF FF`. -/
theorem read_raw_array_negative_length_witness :
    4 ≤ ([255, 255, 255, 255, 9] : List Nat).length
      ∧ fromBytesLESigned (([255, 255, 255, 255, 9] : List Nat).take 4) < 0
      ∧ read_array elemUnit (1 :: [255, 255, 255, 255, 9]) = .ok (some [], [9]) := by
  refine ⟨by decide, by decide, ?_⟩
  exact (read_raw_array_negative_length elemUnit [255, 255, 255, 255, 9]
    (by decide) (by decide)).2 1 (by decide)

/-- Counterexample to claim C2: with `areas.dat` missing but every other
dataset present and loadable (shown for `bargains` and `backers`),
`load_all` does not return a mapping with a per-dataset error entry — it
aborts wholesale with the missing file's `FileNotFoundError`. -/
theorem load_all_missing_file_aborts :
    load_all elemUnitOf fsMissingAreas = .error .fileNotFoundError
      ∧ load_data elemUnitOf fsMissingAreas "bargains" =
          .ok (DatasetResult.records [])
      ∧ load_data elemUnitOf fsMissingAreas "backers" =
          .ok (DatasetResult.names []) := by
  exact ⟨by decide, by decide, by decide⟩

/-- Claim C2 (amended): `load_all` invokes `load_data` independently for
each dataset name in the fixed catalog, in order, and on success maps every
name to its decoded result; but it does not isolate per-dataset failures:
it succeeds if and only if every single dataset loads, and any dataset
error aborts the whole load instead of being collected as an error entry. -/
theorem load_all_spec {α : Type}
    (decodeElem : String → List Nat → Except DecodeErr (α × List Nat))
    (fs : String → Option (List Nat)) :
    ((∃ l, load_all decodeElem fs = .ok l) ↔
        ∀ x ∈ VALID_TYPES, isOk (load_data decodeElem fs x) = true)
      ∧ (∀ l, load_all decodeElem fs = .ok l →
          (∀ x r, (x, r) ∈ l → load_data decodeElem fs x = .ok r)
            ∧ ∀ x ∈ VALID_TYPES, ∃ r, (x, r) ∈ l) := by
  have hdef : load_all decodeElem fs =
      mapExcept (fun x => (load_data decodeElem fs x).map (fun r => (x, r)))
        VALID_TYPES := rfl
  have hmap : ∀ x, (∃ b, ((load_data decodeElem fs x).map
      (fun r => (x, r))) = .ok b) ↔ isOk (load_data decodeElem fs x) = true := by
    intro x
    cases h : load_data decodeElem fs x <;> simp [Except.map, h, isOk]
  constructor
  · rw [hdef]
    rw [mapExcept_isOk_iff VALID_TYPES]
    constructor
    · intro h x hx
      exact (hmap x).mp (h x hx)
    · intro h x hx
      exact (hmap x).mpr (h x hx)
  · intro l hl
    rw [hdef] at hl
    constructor
    · intro x r hxr
      rcases mapExcept_ok_backward VALID_TYPES l hl (x, r) hxr with ⟨a, _, hfa⟩
      cases hda : load_data decodeElem fs a with
      | error e =>
        rw [hda] at hfa
        exact absurd hfa (by simp [Except.map])
      | ok r2 =>
        rw [hda] at hfa
        simp only [Except.map] at hfa
        have hpair : (a, r2) = (x, r) := Except.ok.inj hfa
        have ha2 : a = x := congrArg Prod.fst hpair
        have hr2 : r2 = r := congrArg Prod.snd hpair
        rw [← ha2, hda, hr2]
    · intro x hx
      rcases mapExcept_ok_forward VALID_TYPES l hl x hx with ⟨b, hb, hfb⟩
      cases hda : load_data decodeElem fs x with
      | error e =>
        rw [hda] at hfb
        exact absurd hfb (by simp [Except.map])
      | ok r2 =>
        rw [hda] at hfb
        simp only [Except.map] at hfb
        exact ⟨r2, by rw [Except.ok.inj hfb]; exact hb⟩

/-- Witness for claim C2's amended statement: with every dataset file
present, every `load_data` call succeeds and so does `load_all`. -/
theorem load_all_spec_witness :
    (∀ x ∈ VALID_TYPES, isOk (load_data elemUnitOf fsAll x) = true)
      ∧ ∃ l, load_all elemUnitOf fsAll = .ok l := by
  refine ⟨by decide, ?_⟩
  exact (load_all_spec elemUnitOf fsAll).1.mpr (by decide)

end Sunless
